import Mathlib

/-!
Verification of the duplicate-tag resolution engine (the tag-merge script
plugin): a shallow embedding of its normalization helpers, index builder,
merge planner (chain resolution with cycle stop, filtering, sorting) and
the dry-run/apply pipeline, together with proofs of the specified
properties.
-/

namespace TagMerge

/-- Whitespace test used by string trimming (the ASCII whitespace class of
the JavaScript string trim). -/
def isWS (c : Char) : Bool :=
  c == ' ' || c == '\t' || c == '\n' || c == '\r' || c == '\x0b' || c == '\x0c'

/-- String trimming: drop leading and trailing whitespace, embedding the
JavaScript trim used throughout the plugin. -/
def trimStr (s : String) : String :=
  ⟨((s.data.dropWhile isWS).reverse.dropWhile isWS).reverse⟩

/-- Lower-casing of a string, character by character (JavaScript
toLowerCase restricted to the character-wise case map). -/
def toLowerStr (s : String) : String :=
  ⟨s.data.map Char.toLower⟩

/-- `norm(s)`: trim then lower-case; the normalized key used for all
matching (source: `norm`). -/
def norm (s : String) : String := toLowerStr (trimStr s)

/-- `nsKey(ns, value)`: the composite key `ns + "\u0000" + value` of the
translation index (source: `nsKey`). -/
def nsKey (ns value : String) : String := ns ++ "\x00" ++ value

/-- `isOtherLike(ns)`: a namespace equal to `"other"` or empty (source:
`isOtherLike`). -/
def isOtherLike (ns : String) : Bool := ns == "other" || ns == ""

/-- Lookup in an insertion-ordered association list: the model of
`Map.get`. -/
def alGet {α β : Type} [DecidableEq α] : List (α × β) → α → Option β
  | [], _ => none
  | (k', v) :: rest, k => if k' = k then some v else alGet rest k

/-- Update in an insertion-ordered association list: overwrite in place if
the key exists, append otherwise; the model of `Map.set`. -/
def alSet {α β : Type} [DecidableEq α] : List (α × β) → α → β → List (α × β)
  | [], k, v => [(k, v)]
  | (k', v') :: rest, k, v =>
      if k' = k then (k, v) :: rest else (k', v') :: alSet rest k v

/-- A raw item of a `tags.list` response, before validation. `id = none`
models a non-numeric / non-finite id. -/
structure RawTag where
  id : Option Int
  ns : String
  name : String
  translation_text : String
deriving DecidableEq

/-- A retained, normalized tag record (`{ id, namespace: ns, name,
translation_text: t }` as pushed by `ingest`). -/
structure Tag where
  id : Int
  ns : String
  name : String
  translation_text : String
deriving DecidableEq

/-- The mutable state accumulated by `ingest`: the retained tag list, the
rule-1 translation index, the rule-2 canonical-candidate index and the
id-to-namespace map. -/
structure IngestState where
  tags : List Tag
  translationIndex : List (String × Int)
  canonicalCandidates : List (String × List Int)
  idToNs : List (Int × String)
deriving DecidableEq

/-- The state before any page is ingested. -/
def initState : IngestState := ⟨[], [], [], []⟩

/-- Add an id to the candidate set of a key: create a singleton set when
the key is absent, otherwise append the id if not already a member
(source: the `canonicalCandidates` update, `Set.add` semantics with
insertion order). -/
def ccAdd (cc : List (String × List Int)) (k : String) (id : Int) :
    List (String × List Int) :=
  match alGet cc k with
  | none => alSet cc k [id]
  | some s => alSet cc k (if id ∈ s then s else s ++ [id])

/-- Ingest one raw item (source: the body of the `ingest` loop, lines
99-128): skip records with invalid id, trim all text fields, retain the
record, and index non-otherlike tags by normalized name and translation,
with the `0` ambiguity sentinel on translation-key collisions. -/
def ingestOne (st : IngestState) (it : RawTag) : IngestState :=
  match it.id with
  | none => st
  | some id =>
    if id ≤ 0 then st
    else
      let ns := trimStr it.ns
      let name := trimStr it.name
      let t := trimStr it.translation_text
      let st1 : IngestState :=
        { st with
          tags := st.tags ++ [⟨id, ns, name, t⟩],
          idToNs := alSet st.idToNs id ns }
      if isOtherLike ns then st1
      else
        let nameKey := norm name
        let st2 : IngestState :=
          if nameKey = "" then st1
          else { st1 with canonicalCandidates := ccAdd st1.canonicalCandidates nameKey id }
        let trKey := norm t
        if trKey = "" then st2
        else
          let st3 : IngestState :=
            { st2 with canonicalCandidates := ccAdd st2.canonicalCandidates trKey id }
          let k := nsKey ns trKey
          match alGet st3.translationIndex k with
          | none => { st3 with translationIndex := alSet st3.translationIndex k id }
          | some prev =>
              if prev = id then st3
              else { st3 with translationIndex := alSet st3.translationIndex k 0 }

/-- Ingest a list of raw items in order. -/
def ingestList (st : IngestState) (items : List RawTag) : IngestState :=
  items.foldl ingestOne st

/-- The normalization of a single raw item: `none` exactly when the record
is discarded (non-finite or non-positive id), otherwise the retained
record. -/
def normTag (it : RawTag) : Option Tag :=
  match it.id with
  | none => none
  | some id =>
    if id ≤ 0 then none
    else some ⟨id, trimStr it.ns, trimStr it.name, trimStr it.translation_text⟩

/-- The per-tag edge proposal (source: the body of the planning loop,
lines 150-169): rule 2 ("otherlike absorption") for otherlike tags, rule 1
("same-namespace translation match") otherwise. -/
def proposeEdge (st : IngestState) (it : Tag) : Option Int :=
  let sourceId := it.id
  let ns := trimStr it.ns
  let nameKey := norm it.name
  if nameKey = "" then none
  else if isOtherLike ns then
    match alGet st.canonicalCandidates nameKey with
    | none => none
    | some s =>
      match s with
      | [targetId] =>
          if targetId ≠ 0 ∧ targetId ≠ sourceId then some targetId else none
      | _ => none
  else
    match alGet st.translationIndex (nsKey ns nameKey) with
    | none => none
    | some targetId =>
        if targetId = 0 ∨ targetId = sourceId then none else some targetId

/-- The first-pass `sourceToTarget` map: one proposed edge per catalog tag,
in catalog order (source: lines 148-169). -/
def buildEdges (st : IngestState) : List (Int × Int) :=
  st.tags.foldl
    (fun m it =>
      match proposeEdge st it with
      | none => m
      | some t => alSet m it.id t)
    []

/-- One bounded unfolding of the `resolve` while-loop (source: lines
172-182): follow outgoing edges, stop on a missing or falsy target, stop
on a revisit. `none` means the fuel ran out; the termination theorem shows
fuel `m.length + 1` always suffices. -/
def resolveGo (m : List (Int × Int)) : Nat → Int → List Int → Option Int
  | 0, _, _ => none
  | fuel + 1, cur, seen =>
    match alGet m cur with
    | none => some cur
    | some next =>
      if next = 0 then some cur
      else if next ∈ seen then some cur
      else resolveGo m fuel next (next :: seen)

/-- Chain resolution of an id (source: `resolve`), run with sufficient
fuel. -/
def resolve (m : List (Int × Int)) (id : Int) : Int :=
  (resolveGo m (m.length + 1) id []).getD id

/-- Post-resolution filtering and sorting (source: lines 184-193): resolve
every proposed edge, drop self-merges and otherlike-into-otherlike merges,
then sort ascending by source id (a stable sort, as the JavaScript array
sort with comparator `a.sourceId - b.sourceId`). -/
def buildMerges (s2t : List (Int × Int)) (idToNs : List (Int × String)) :
    List (Int × Int) :=
  let raw := s2t.foldl
    (fun acc e =>
      let finalTarget := resolve s2t e.2
      if finalTarget = e.1 then acc
      else if isOtherLike ((alGet idToNs e.1).getD "") &&
              isOtherLike ((alGet idToNs finalTarget).getD "") then acc
      else acc ++ [(e.1, finalTarget)])
    []
  raw.insertionSort (fun a b => a.1 ≤ b.1)

/-- One `tags.list` response: the reported total and the page items. -/
structure HostPage where
  total : Int
  items : List RawTag

/-- The paging loop (source: lines 135-144): fetch pages at increasing
offsets while `offset < total`. Fuel-bounded embedding of the while loop;
`total.toNat` fuel always suffices because the offset starts at
`pageSize ≥ 1` and grows by `pageSize` per iteration. -/
def loadLoop (host : Nat → HostPage) (pageSize : Nat) (total : Int) :
    Nat → Nat → List RawTag
  | 0, _ => []
  | fuel + 1, offset =>
    if (offset : Int) < total then
      (host offset).items ++ loadLoop host pageSize total fuel (offset + pageSize)
    else []

/-- All items retrieved by the loader for a given page-size parameter and
host: the first page (offset 0) followed by the paging loop from offset
`pageSize` (source: lines 89-144). -/
def allItemsOf (p : Nat) (host : Nat → HostPage) : List RawTag :=
  let pageSize := min 2000 (max 1 p)
  (host 0).items ++ loadLoop host pageSize (host 0).total ((host 0).total.toNat) pageSize

/-- The loaded catalog and indexes for a run. -/
def catalogOf (p : Nat) (host : Nat → HostPage) : IngestState :=
  ingestList initState (allItemsOf p host)

/-- The final merge plan emitted for a run. -/
def planOf (p : Nat) (host : Nat → HostPage) : List (Int × Int) :=
  buildMerges (buildEdges (catalogOf p host)) (catalogOf p host).idToNs

/-- The final result object of a successful run (source: the
`outputResult` payloads of lines 199 and 213). -/
structure RunResult where
  success : Bool
  dry_run : Bool
  total_tags : Nat
  planned_merges : Nat
  applied_merges : Option Nat
deriving DecidableEq

/-- One host `tags.merge` invocation. -/
structure MergeCall where
  sourceId : Int
  targetId : Int
  deleteSource : Bool
deriving DecidableEq

/-- The observable outcome of a full run: the emitted plan preview (first
200 entries plus true total), the result object, and the sequence of
`tags.merge` host calls issued. -/
structure RunOutput where
  preview : List (Int × Int) × Nat
  result : RunResult
  mergeCalls : List MergeCall
deriving DecidableEq

/-- A full run of the pipeline (source: `runPlugin`, lines 67-214): load
and ingest all pages, build and emit the plan, then either return the
dry-run result with no host mutation, or apply the plan up to the
`max_merges` cap and report the applied count. -/
def runPlugin (p : Nat) (dryRun deleteSource : Bool) (maxMerges : Nat)
    (host : Nat → HostPage) : RunOutput :=
  let st := catalogOf p host
  let s2t := buildEdges st
  let merges := buildMerges s2t st.idToNs
  let preview := (merges.take 200, merges.length)
  if dryRun then
    { preview := preview,
      result :=
        { success := true, dry_run := true, total_tags := st.tags.length,
          planned_merges := merges.length, applied_merges := none },
      mergeCalls := [] }
  else
    let toApply := if 0 < maxMerges then merges.take maxMerges else merges
    { preview := preview,
      result :=
        { success := true, dry_run := false, total_tags := st.tags.length,
          planned_merges := merges.length, applied_merges := some toApply.length },
      mergeCalls := toApply.map (fun m => ⟨m.1, m.2, deleteSource⟩) }

/-! ### Association-list lemmas -/

theorem alGet_alSet_self {α β : Type} [DecidableEq α] (m : List (α × β)) (k : α) (v : β) :
    alGet (alSet m k v) k = some v := by
  induction m with
  | nil => simp [alGet, alSet]
  | cons e rest ih =>
    by_cases h : e.1 = k
    · simp [alSet, alGet, h]
    · simpa [alSet, alGet, h] using ih

theorem alGet_alSet_ne {α β : Type} [DecidableEq α] (m : List (α × β)) (k k' : α) (v : β)
    (h : k' ≠ k) : alGet (alSet m k v) k' = alGet m k' := by
  have h' : ¬ k = k' := fun he => h he.symm
  induction m with
  | nil => simp [alGet, alSet, h']
  | cons e rest ih =>
    by_cases he : e.1 = k
    · simp [alSet, alGet, he, h']
    · by_cases he' : e.1 = k'
      · simp [alSet, alGet, he, he', h]
      · simpa [alSet, alGet, he, he'] using ih

theorem alSet_eq_of_get {α β : Type} [DecidableEq α] (m : List (α × β)) (k : α) (v : β)
    (h : alGet m k = some v) : alSet m k v = m := by
  induction m with
  | nil => simp [alGet] at h
  | cons e rest ih =>
    by_cases he : e.1 = k
    · simp only [alGet, if_pos he] at h
      have hv : e.2 = v := by injection h
      have : (k, v) = e := by
        cases e
        simp_all
      simp [alSet, he, this]
    · simp only [alGet, if_neg he] at h
      simp [alSet, he, ih h]

theorem alGet_mem {α β : Type} [DecidableEq α] {m : List (α × β)} {k : α} {v : β}
    (h : alGet m k = some v) : (k, v) ∈ m := by
  induction m with
  | nil => simp [alGet] at h
  | cons e rest ih =>
    by_cases he : e.1 = k
    · simp only [alGet, if_pos he] at h
      have : e = (k, v) := by
        cases e
        simp_all
      simp [this]
    · simp only [alGet, if_neg he] at h
      exact List.mem_cons_of_mem _ (ih h)

theorem mem_alSet {α β : Type} [DecidableEq α] {m : List (α × β)} {k : α} {v : β} {e : α × β}
    (h : e ∈ alSet m k v) : e = (k, v) ∨ e ∈ m := by
  induction m with
  | nil => simpa [alSet] using h
  | cons d rest ih =>
    by_cases hd : d.1 = k
    · simp only [alSet, if_pos hd, List.mem_cons] at h
      rcases h with h | h
      · exact Or.inl h
      · exact Or.inr (List.mem_cons_of_mem _ h)
    · simp only [alSet, if_neg hd, List.mem_cons] at h
      rcases h with h | h
      · exact Or.inr (by simp [h])
      · rcases ih h with h' | h'
        · exact Or.inl h'
        · exact Or.inr (List.mem_cons_of_mem _ h')

theorem alSet_map_fst {α β : Type} [DecidableEq α] (m : List (α × β)) (k : α) (v : β) :
    (alSet m k v).map Prod.fst =
      if k ∈ m.map Prod.fst then m.map Prod.fst else m.map Prod.fst ++ [k] := by
  induction m with
  | nil => simp [alSet]
  | cons e rest ih =>
    by_cases he : e.1 = k
    · simp [alSet, he]
    · have hne : ¬ k = e.1 := fun h => he h.symm
      by_cases hk : k ∈ rest.map Prod.fst
      · simp [alSet, he, hk, hne, ih]
      · simp [alSet, he, hk, hne, ih]

theorem alSet_keys_nodup {α β : Type} [DecidableEq α] {m : List (α × β)} (k : α) (v : β)
    (h : (m.map Prod.fst).Nodup) : ((alSet m k v).map Prod.fst).Nodup := by
  rw [alSet_map_fst]
  by_cases hk : k ∈ m.map Prod.fst
  · simpa [hk] using h
  · simp only [hk, if_neg, ite_false]
    exact List.Nodup.append h (List.nodup_singleton k) (by simpa using hk)

/-! ### Candidate-set update lemmas -/

/-- The new candidate set produced by one `ccAdd` at its key. -/
def ccNew (o : Option (List Int)) (id : Int) : List Int :=
  match o with
  | none => [id]
  | some s => if id ∈ s then s else s ++ [id]

theorem ccAdd_get_self (cc : List (String × List Int)) (k : String) (id : Int) :
    alGet (ccAdd cc k id) k = some (ccNew (alGet cc k) id) := by
  unfold ccAdd ccNew
  cases h : alGet cc k <;> simp [h, alGet_alSet_self]

theorem ccAdd_get_ne (cc : List (String × List Int)) (k k' : String) (id : Int)
    (h : k' ≠ k) : alGet (ccAdd cc k id) k' = alGet cc k' := by
  unfold ccAdd
  cases hg : alGet cc k <;> simp [alGet_alSet_ne _ _ _ _ h]

theorem mem_ccNew {o : Option (List Int)} {id v : Int} (h : v ∈ ccNew o id) :
    v = id ∨ ∃ s, o = some s ∧ v ∈ s := by
  cases o with
  | none => simp [ccNew] at h; exact Or.inl h
  | some s =>
    simp only [ccNew] at h
    by_cases hm : id ∈ s
    · exact Or.inr ⟨s, rfl, by simpa [hm] using h⟩
    · simp only [hm, if_neg, ite_false, List.mem_append, List.mem_singleton] at h
      rcases h with h | h
      · exact Or.inr ⟨s, rfl, h⟩
      · exact Or.inl h

theorem ccNew_mem_self (o : Option (List Int)) (id : Int) : id ∈ ccNew o id := by
  cases o with
  | none => simp [ccNew]
  | some s => by_cases hm : id ∈ s <;> simp [ccNew, hm]

theorem ccNew_mono {o : Option (List Int)} {s : List Int} {id v : Int}
    (ho : o = some s) (h : v ∈ s) : v ∈ ccNew o id := by
  subst ho
  by_cases hm : id ∈ s <;> simp [ccNew, hm, h]

theorem ccAdd_eq_of_mem {cc : List (String × List Int)} {k : String} {id : Int} {s : List Int}
    (hg : alGet cc k = some s) (hm : id ∈ s) : ccAdd cc k id = cc := by
  unfold ccAdd
  rw [hg]
  simpa [hm] using alSet_eq_of_get cc k s hg

/-! ### Trimming is idempotent -/

theorem dropWhile_head_false {α : Type} (p : α → Bool) (l : List α) {a : α}
    (h : (l.dropWhile p).head? = some a) : p a = false := by
  induction l with
  | nil => simp [List.dropWhile] at h
  | cons b t ih =>
    by_cases hb : p b
    · rw [List.dropWhile_cons, if_pos hb] at h
      exact ih h
    · rw [List.dropWhile_cons, if_neg hb] at h
      simp only [List.head?_cons, Option.some.injEq] at h
      subst h
      simpa using hb

theorem dropWhile_idem {α : Type} (p : α → Bool) (l : List α) :
    (l.dropWhile p).dropWhile p = l.dropWhile p := by
  cases hl : l.dropWhile p with
  | nil => simp
  | cons a t =>
    have ha : p a = false := dropWhile_head_false p l (by rw [hl]; rfl)
    rw [List.dropWhile_cons, if_neg (by simp [ha])]

theorem rightTrim_stable {α : Type} (p : α → Bool) (l : List α)
    (h : l.dropWhile p = l) :
    ((l.reverse.dropWhile p).reverse).dropWhile p = (l.reverse.dropWhile p).reverse := by
  cases l with
  | nil => simp
  | cons a t =>
    have ha : p a = false := by
      have : ((a :: t).dropWhile p).head? = some a := by rw [h]; rfl
      exact dropWhile_head_false p _ this
    rw [List.reverse_cons, List.dropWhile_append]
    by_cases he : (t.reverse.dropWhile p).isEmpty
    · rw [if_pos he]
      rw [List.dropWhile_cons]
      simp only [ha, Bool.false_eq_true, if_neg, ite_false, List.dropWhile_nil]
      simp [List.dropWhile_cons, ha]
    · rw [if_neg he]
      rw [List.reverse_append, List.reverse_singleton]
      rw [List.singleton_append, List.dropWhile_cons]
      simp [ha]

theorem trimStr_idem (s : String) : trimStr (trimStr s) = trimStr s := by
  unfold trimStr
  have hA : (s.data.dropWhile isWS).dropWhile isWS = s.data.dropWhile isWS :=
    dropWhile_idem isWS s.data
  have h1 := rightTrim_stable isWS (s.data.dropWhile isWS) hA
  simp only [h1]
  rw [List.reverse_reverse]
  rw [dropWhile_idem]

/-! ### Termination and shape of chain resolution -/

theorem resolveGo_isSome (m : List (Int × Int)) :
    ∀ (fuel : Nat) (cur : Int) (seen : List Int),
      (m.filter (fun e => decide (e.2 ∉ seen))).length < fuel →
      (resolveGo m fuel cur seen).isSome = true := by
  intro fuel
  induction fuel with
  | zero => intro cur seen h; exact absurd h (Nat.not_lt_zero _)
  | succ n ih =>
    intro cur seen h
    cases hg : alGet m cur with
    | none => simp [resolveGo, hg]
    | some next =>
      by_cases h0 : next = 0
      · simp [resolveGo, hg, h0]
      · by_cases hs : next ∈ seen
        · simp [resolveGo, hg, h0, hs]
        · simp only [resolveGo, hg, h0, hs, if_neg, ite_false, if_false]
          apply ih
          have hmem : (cur, next) ∈ m := alGet_mem hg
          have hsub : List.Sublist (m.filter (fun e => decide (e.2 ∉ next :: seen)))
              (m.filter (fun e => decide (e.2 ∉ seen))) := by
            apply List.monotone_filter_right
            intro e he
            simp only [decide_eq_true_eq, List.mem_cons, not_or] at he ⊢
            exact he.2
          have hlen := hsub.length_le
          rcases Nat.lt_or_ge (m.filter (fun e => decide (e.2 ∉ next :: seen))).length
              (m.filter (fun e => decide (e.2 ∉ seen))).length with hlt | hge
          · omega
          · exfalso
            have heq : m.filter (fun e => decide (e.2 ∉ next :: seen)) =
                m.filter (fun e => decide (e.2 ∉ seen)) :=
              hsub.eq_of_length (Nat.le_antisymm hlen hge)
            have h1 : (cur, next) ∈ m.filter (fun e => decide (e.2 ∉ seen)) := by
              simp only [List.mem_filter, decide_eq_true_eq]
              exact ⟨hmem, hs⟩
            rw [← heq] at h1
            simp at h1

theorem resolveGo_out (m : List (Int × Int)) :
    ∀ (fuel : Nat) (cur : Int) (seen : List Int) (r : Int),
      resolveGo m fuel cur seen = some r → r = cur ∨ ∃ s, (s, r) ∈ m := by
  intro fuel
  induction fuel with
  | zero => intro cur seen r h; simp [resolveGo] at h
  | succ n ih =>
    intro cur seen r h
    cases hg : alGet m cur with
    | none =>
      simp only [resolveGo, hg] at h
      exact Or.inl (by injection h; omega)
    | some next =>
      by_cases h0 : next = 0
      · simp only [resolveGo, hg, h0, if_pos, ite_true] at h
        exact Or.inl (by injection h; omega)
      · by_cases hs : next ∈ seen
        · simp only [resolveGo, hg, h0, hs, if_neg, ite_false, if_pos, ite_true] at h
          exact Or.inl (by injection h; omega)
        · simp only [resolveGo, hg, h0, hs, if_neg, ite_false] at h
          rcases ih next (next :: seen) r h with h' | h'
          · exact Or.inr ⟨cur, h' ▸ alGet_mem hg⟩
          · exact Or.inr h'

theorem resolve_out (m : List (Int × Int)) (id : Int) :
    resolve m id = id ∨ ∃ s, (s, resolve m id) ∈ m := by
  have hfuel : (m.filter (fun e => decide (e.2 ∉ ([] : List Int)))).length < m.length + 1 :=
    Nat.lt_succ_of_le (List.length_filter_le _ _)
  have hsome := resolveGo_isSome m (m.length + 1) id [] hfuel
  rcases Option.isSome_iff_exists.1 hsome with ⟨r, hr⟩
  have : resolve m id = r := by simp [resolve, hr]
  rw [this]
  exact resolveGo_out m _ id [] r hr

/-! ### Shape of one ingest step -/

/-- The record retained for a valid raw item. -/
def mkTag (it : RawTag) (id : Int) : Tag :=
  ⟨id, trimStr it.ns, trimStr it.name, trimStr it.translation_text⟩

/-- The canonical-candidate index after ingesting one valid non-otherlike
item. -/
def ccAfter (cc : List (String × List Int)) (it : RawTag) (id : Int) :
    List (String × List Int) :=
  let nameKey := norm (trimStr it.name)
  let cc1 := if nameKey = "" then cc else ccAdd cc nameKey id
  let trKey := norm (trimStr it.translation_text)
  if trKey = "" then cc1 else ccAdd cc1 trKey id

/-- The translation index after ingesting one valid non-otherlike item. -/
def tiAfter (ti : List (String × Int)) (it : RawTag) (id : Int) :
    List (String × Int) :=
  let trKey := norm (trimStr it.translation_text)
  if trKey = "" then ti
  else
    let k := nsKey (trimStr it.ns) trKey
    match alGet ti k with
    | none => alSet ti k id
    | some prev => if prev = id then ti else alSet ti k 0

theorem ingestOne_invalid (st : IngestState) (it : RawTag)
    (h : normTag it = none) : ingestOne st it = st := by
  cases hid : it.id with
  | none => simp [ingestOne, hid]
  | some id =>
    simp only [normTag, hid] at h
    by_cases hpos : id ≤ 0
    · simp [ingestOne, hid, hpos]
    · simp [hpos] at h

theorem ingestOne_other (st : IngestState) (it : RawTag) (id : Int)
    (hid : it.id = some id) (hpos : ¬ id ≤ 0)
    (hns : isOtherLike (trimStr it.ns) = true) :
    ingestOne st it =
      { st with tags := st.tags ++ [mkTag it id],
                idToNs := alSet st.idToNs id (trimStr it.ns) } := by
  simp [ingestOne, hid, hpos, hns, mkTag]

theorem ingestOne_nonother (st : IngestState) (it : RawTag) (id : Int)
    (hid : it.id = some id) (hpos : ¬ id ≤ 0)
    (hns : isOtherLike (trimStr it.ns) = false) :
    ingestOne st it =
      { tags := st.tags ++ [mkTag it id],
        translationIndex := tiAfter st.translationIndex it id,
        canonicalCandidates := ccAfter st.canonicalCandidates it id,
        idToNs := alSet st.idToNs id (trimStr it.ns) } := by
  simp only [ingestOne, hid, hpos, hns, if_neg, ite_false, Bool.false_eq_true,
    ccAfter, tiAfter, mkTag]
  by_cases hnk : norm (trimStr it.name) = "" <;>
    by_cases htk : norm (trimStr it.translation_text) = "" <;>
      simp only [hnk, htk, if_pos, if_neg, ite_true, ite_false] <;>
        first
          | rfl
          | (cases hg : alGet st.translationIndex
                (nsKey (trimStr it.ns) (norm (trimStr it.translation_text))) <;>
              simp only [hg] <;>
                first
                  | rfl
                  | (split <;> rfl))

/-! ### The indexing invariant -/

/-- The tag produces translation-index key `k`. -/
def tagProduces (t : Tag) (k : String) : Prop :=
  isOtherLike t.ns = false ∧ norm t.translation_text ≠ "" ∧
    nsKey t.ns (norm t.translation_text) = k

/-- The tag contributes its id to candidate-index key `k` (by name or by
translation). -/
def tagNames (t : Tag) (k : String) : Prop :=
  isOtherLike t.ns = false ∧
    ((norm t.name ≠ "" ∧ norm t.name = k) ∨
     (norm t.translation_text ≠ "" ∧ norm t.translation_text = k))

instance (t : Tag) (k : String) : Decidable (tagProduces t k) := by
  unfold tagProduces
  infer_instance

instance (t : Tag) (k : String) : Decidable (tagNames t k) := by
  unfold tagNames
  infer_instance

/-- The invariant maintained by ingestion, tying both indexes to the
retained tag list. -/
structure Inv (st : IngestState) : Prop where
  tags_pos : ∀ t ∈ st.tags, 0 < t.id
  tags_trim : ∀ t ∈ st.tags, trimStr t.ns = t.ns
  ti_sound : ∀ k v, alGet st.translationIndex k = some v → v ≠ 0 →
      0 < v ∧ ∃ t ∈ st.tags, tagProduces t k ∧ t.id = v
  ti_complete : ∀ t ∈ st.tags, ∀ k, tagProduces t k →
      ∃ v, alGet st.translationIndex k = some v ∧ (v = 0 ∨ t.id = v)
  cc_mem : ∀ k s, alGet st.canonicalCandidates k = some s →
      ∀ v ∈ s, ∃ t ∈ st.tags, t.id = v ∧ isOtherLike t.ns = false
  cc_complete : ∀ t ∈ st.tags, ∀ k, tagNames t k →
      ∃ s, alGet st.canonicalCandidates k = some s ∧ t.id ∈ s

theorem Inv_init : Inv initState := by
  constructor <;> simp [initState, alGet]

theorem cc_mem_ccAdd {cc : List (String × List Int)} {k0 : String} {id : Int}
    {Q : Int → Prop}
    (hold : ∀ k s, alGet cc k = some s → ∀ v ∈ s, Q v) (hid : Q id) :
    ∀ k s, alGet (ccAdd cc k0 id) k = some s → ∀ v ∈ s, Q v := by
  intro k s hg v hv
  by_cases hk : k = k0
  · subst hk
    rw [ccAdd_get_self] at hg
    injection hg with hg
    subst hg
    rcases mem_ccNew hv with h | ⟨s', hs', hv'⟩
    · exact h ▸ hid
    · exact hold k s' hs' v hv'
  · rw [ccAdd_get_ne _ _ _ _ hk] at hg
    exact hold k s hg v hv

theorem ccAdd_preserves_mem {cc : List (String × List Int)} {k k0 : String} {id x : Int}
    (h : ∃ s, alGet cc k = some s ∧ x ∈ s) :
    ∃ s, alGet (ccAdd cc k0 id) k = some s ∧ x ∈ s := by
  rcases h with ⟨s, hs, hx⟩
  by_cases hk : k = k0
  · subst hk
    exact ⟨ccNew (alGet cc k) id, ccAdd_get_self cc k id, ccNew_mono hs hx⟩
  · exact ⟨s, by rw [ccAdd_get_ne _ _ _ _ hk]; exact hs, hx⟩

theorem ccAdd_creates_mem (cc : List (String × List Int)) (k0 : String) (id : Int) :
    ∃ s, alGet (ccAdd cc k0 id) k0 = some s ∧ id ∈ s :=
  ⟨ccNew (alGet cc k0) id, ccAdd_get_self cc k0 id, ccNew_mem_self _ _⟩

theorem Inv_step (st : IngestState) (it : RawTag) (h : Inv st) : Inv (ingestOne st it) := by
  cases hid : it.id with
  | none =>
    rw [ingestOne_invalid st it (by simp [normTag, hid])]
    exact h
  | some id =>
    by_cases hpos : id ≤ 0
    · rw [ingestOne_invalid st it (by simp [normTag, hid, hpos])]
      exact h
    · have hpos' : 0 < id := by omega
      cases hns : isOtherLike (trimStr it.ns) with
      | true =>
        rw [ingestOne_other st it id hid hpos hns]
        constructor
        · intro t ht
          rcases List.mem_append.mp ht with ht | ht
          · exact h.tags_pos t ht
          · have heq : t = mkTag it id := by simpa using ht
            simpa [heq, mkTag] using hpos'
        · intro t ht
          rcases List.mem_append.mp ht with ht | ht
          · exact h.tags_trim t ht
          · have heq : t = mkTag it id := by simpa using ht
            simp [heq, mkTag, trimStr_idem]
        · intro k v hg hv
          obtain ⟨hvpos, t, ht, hp, hidv⟩ := h.ti_sound k v hg hv
          exact ⟨hvpos, t, List.mem_append_left _ ht, hp, hidv⟩
        · intro t ht k hp
          rcases List.mem_append.mp ht with ht | ht
          · exact h.ti_complete t ht k hp
          · have heq : t = mkTag it id := by simpa using ht
            rw [heq] at hp
            have hcon := hp.1
            simp [mkTag, hns] at hcon
        · intro k s hg v hv
          obtain ⟨t, ht, hidv, hot⟩ := h.cc_mem k s hg v hv
          exact ⟨t, List.mem_append_left _ ht, hidv, hot⟩
        · intro t ht k hnm
          rcases List.mem_append.mp ht with ht | ht
          · obtain ⟨s, hs, hm⟩ := h.cc_complete t ht k hnm
            exact ⟨s, hs, hm⟩
          · have heq : t = mkTag it id := by simpa using ht
            rw [heq] at hnm
            have hcon := hnm.1
            simp [mkTag, hns] at hcon
      | false =>
        rw [ingestOne_nonother st it id hid hpos hns]
        have hTmem : mkTag it id ∈ st.tags ++ [mkTag it id] := by simp
        have hTns : isOtherLike (mkTag it id).ns = false := by simpa [mkTag] using hns
        constructor
        · intro t ht
          rcases List.mem_append.mp ht with ht | ht
          · exact h.tags_pos t ht
          · have heq : t = mkTag it id := by simpa using ht
            simpa [heq, mkTag] using hpos'
        · intro t ht
          rcases List.mem_append.mp ht with ht | ht
          · exact h.tags_trim t ht
          · have heq : t = mkTag it id := by simpa using ht
            simp [heq, mkTag, trimStr_idem]
        · -- ti_sound
          intro k v hg hv
          show 0 < v ∧ ∃ t ∈ st.tags ++ [mkTag it id], tagProduces t k ∧ t.id = v
          have hg' : alGet (tiAfter st.translationIndex it id) k = some v := hg
          unfold tiAfter at hg'
          by_cases htk : norm (trimStr it.translation_text) = ""
          · rw [if_pos htk] at hg'
            obtain ⟨hvpos, t, ht, hp, hidv⟩ := h.ti_sound k v hg' hv
            exact ⟨hvpos, t, List.mem_append_left _ ht, hp, hidv⟩
          · rw [if_neg htk] at hg'
            cases hK : alGet st.translationIndex
                (nsKey (trimStr it.ns) (norm (trimStr it.translation_text))) with
            | none =>
              simp only [hK] at hg'
              by_cases hk : k = nsKey (trimStr it.ns) (norm (trimStr it.translation_text))
              · subst hk
                rw [alGet_alSet_self] at hg'
                injection hg' with hg'
                subst hg'
                exact ⟨hpos', mkTag it id, hTmem, ⟨hTns, htk, rfl⟩, rfl⟩
              · rw [alGet_alSet_ne _ _ _ _ hk] at hg'
                obtain ⟨hvpos, t, ht, hp, hidv⟩ := h.ti_sound k v hg' hv
                exact ⟨hvpos, t, List.mem_append_left _ ht, hp, hidv⟩
            | some prev =>
              simp only [hK] at hg'
              by_cases hpe : prev = id
              · rw [if_pos hpe] at hg'
                obtain ⟨hvpos, t, ht, hp, hidv⟩ := h.ti_sound k v hg' hv
                exact ⟨hvpos, t, List.mem_append_left _ ht, hp, hidv⟩
              · rw [if_neg hpe] at hg'
                by_cases hk : k = nsKey (trimStr it.ns) (norm (trimStr it.translation_text))
                · subst hk
                  rw [alGet_alSet_self] at hg'
                  injection hg' with hg'
                  exact absurd hg'.symm hv
                · rw [alGet_alSet_ne _ _ _ _ hk] at hg'
                  obtain ⟨hvpos, t, ht, hp, hidv⟩ := h.ti_sound k v hg' hv
                  exact ⟨hvpos, t, List.mem_append_left _ ht, hp, hidv⟩
        · -- ti_complete
          intro t ht k hp
          show ∃ v, alGet (tiAfter st.translationIndex it id) k = some v ∧ (v = 0 ∨ t.id = v)
          unfold tiAfter
          rcases List.mem_append.mp ht with htOld | htNew
          · obtain ⟨v, hv, hd⟩ := h.ti_complete t htOld k hp
            by_cases htk : norm (trimStr it.translation_text) = ""
            · rw [if_pos htk]
              exact ⟨v, hv, hd⟩
            · rw [if_neg htk]
              cases hK : alGet st.translationIndex
                  (nsKey (trimStr it.ns) (norm (trimStr it.translation_text))) with
              | none =>
                simp only [hK]
                by_cases hk : k = nsKey (trimStr it.ns) (norm (trimStr it.translation_text))
                · rw [← hk] at hK
                  rw [hK] at hv
                  cases hv
                · exact ⟨v, by rw [alGet_alSet_ne _ _ _ _ hk]; exact hv, hd⟩
              | some prev =>
                simp only [hK]
                by_cases hpe : prev = id
                · rw [if_pos hpe]
                  exact ⟨v, hv, hd⟩
                · rw [if_neg hpe]
                  by_cases hk : k = nsKey (trimStr it.ns) (norm (trimStr it.translation_text))
                  · subst hk
                    exact ⟨0, alGet_alSet_self _ _ _, Or.inl rfl⟩
                  · exact ⟨v, by rw [alGet_alSet_ne _ _ _ _ hk]; exact hv, hd⟩
          · have heq : t = mkTag it id := by simpa using htNew
            subst heq
            obtain ⟨-, htk, hkK⟩ := hp
            have htk' : norm (trimStr it.translation_text) ≠ "" := by
              simpa [mkTag] using htk
            have hkK' : nsKey (trimStr it.ns) (norm (trimStr it.translation_text)) = k := by
              simpa [mkTag] using hkK
            rw [if_neg htk']
            subst hkK'
            cases hK : alGet st.translationIndex
                (nsKey (trimStr it.ns) (norm (trimStr it.translation_text))) with
            | none =>
              simp only [hK]
              exact ⟨id, alGet_alSet_self _ _ _, Or.inr rfl⟩
            | some prev =>
              simp only [hK]
              by_cases hpe : prev = id
              · rw [if_pos hpe]
                exact ⟨prev, hK, Or.inr (by simp [mkTag, hpe])⟩
              · rw [if_neg hpe]
                exact ⟨0, alGet_alSet_self _ _ _, Or.inl rfl⟩
        · -- cc_mem
          intro k s hg v hv
          show ∃ t ∈ st.tags ++ [mkTag it id], t.id = v ∧ isOtherLike t.ns = false
          have hold : ∀ k s, alGet st.canonicalCandidates k = some s → ∀ v ∈ s,
              ∃ t ∈ st.tags ++ [mkTag it id], t.id = v ∧ isOtherLike t.ns = false := by
            intro k s hgs v hvs
            obtain ⟨t, ht, h1, h2⟩ := h.cc_mem k s hgs v hvs
            exact ⟨t, List.mem_append_left _ ht, h1, h2⟩
          have hidQ : ∃ t ∈ st.tags ++ [mkTag it id], t.id = id ∧ isOtherLike t.ns = false :=
            ⟨mkTag it id, hTmem, rfl, hTns⟩
          have hstep1 : ∀ k s,
              alGet (if norm (trimStr it.name) = "" then st.canonicalCandidates
                else ccAdd st.canonicalCandidates (norm (trimStr it.name)) id) k = some s →
              ∀ v ∈ s, ∃ t ∈ st.tags ++ [mkTag it id], t.id = v ∧ isOtherLike t.ns = false := by
            by_cases hnk : norm (trimStr it.name) = ""
            · simpa [hnk] using hold
            · simpa [hnk] using cc_mem_ccAdd hold hidQ
          have hstep2 : ∀ k s,
              alGet (ccAfter st.canonicalCandidates it id) k = some s →
              ∀ v ∈ s, ∃ t ∈ st.tags ++ [mkTag it id], t.id = v ∧ isOtherLike t.ns = false := by
            simp only [ccAfter]
            by_cases htk : norm (trimStr it.translation_text) = ""
            · simpa [htk] using hstep1
            · simpa [htk] using cc_mem_ccAdd hstep1 hidQ
          exact hstep2 k s hg v hv
        · -- cc_complete
          intro t ht k hnm
          show ∃ s, alGet (ccAfter st.canonicalCandidates it id) k = some s ∧ t.id ∈ s
          rcases List.mem_append.mp ht with htOld | htNew
          · obtain ⟨s, hs, hm⟩ := h.cc_complete t htOld k hnm
            have hp1 : ∃ s,
                alGet (if norm (trimStr it.name) = "" then st.canonicalCandidates
                  else ccAdd st.canonicalCandidates (norm (trimStr it.name)) id) k = some s ∧
                t.id ∈ s := by
              by_cases hnk : norm (trimStr it.name) = ""
              · simpa [hnk] using ⟨s, hs, hm⟩
              · simpa [hnk] using ccAdd_preserves_mem ⟨s, hs, hm⟩
            simp only [ccAfter]
            by_cases htk : norm (trimStr it.translation_text) = ""
            · simpa [htk] using hp1
            · simpa [htk] using ccAdd_preserves_mem hp1
          · have heq : t = mkTag it id := by simpa using htNew
            subst heq
            obtain ⟨-, hd⟩ := hnm
            simp only [ccAfter]
            rcases hd with ⟨hne, hkk⟩ | ⟨hne, hkk⟩
            · have hne' : norm (trimStr it.name) ≠ "" := by simpa [mkTag] using hne
              have hkk' : norm (trimStr it.name) = k := by simpa [mkTag] using hkk
              have hp1 : ∃ s,
                  alGet (ccAdd st.canonicalCandidates (norm (trimStr it.name)) id) k =
                    some s ∧ (mkTag it id).id ∈ s := by
                rw [← hkk']
                exact ccAdd_creates_mem _ _ _
              rw [if_neg hne']
              by_cases htk : norm (trimStr it.translation_text) = ""
              · simpa [htk] using hp1
              · simpa [htk] using ccAdd_preserves_mem hp1
            · have hne' : norm (trimStr it.translation_text) ≠ "" := by
                simpa [mkTag] using hne
              have hkk' : norm (trimStr it.translation_text) = k := by
                simpa [mkTag] using hkk
              rw [if_neg hne']
              rw [← hkk']
              exact ccAdd_creates_mem _ _ _

theorem Inv_ingestList (st : IngestState) (items : List RawTag) (h : Inv st) :
    Inv (ingestList st items) := by
  induction items generalizing st with
  | nil => exact h
  | cons it rest ih => exact ih (ingestOne st it) (Inv_step st it h)

/-! ### The retained catalog is the filtered normalization of the input -/

theorem ingestOne_tags (st : IngestState) (it : RawTag) :
    (ingestOne st it).tags = st.tags ++ (normTag it).toList := by
  cases hid : it.id with
  | none => simp [ingestOne, normTag, hid]
  | some id =>
    by_cases hpos : id ≤ 0
    · simp [ingestOne, normTag, hid, hpos]
    · cases hns : isOtherLike (trimStr it.ns) with
      | true =>
        rw [ingestOne_other st it id hid hpos hns]
        simp [normTag, hid, hpos, mkTag]
      | false =>
        rw [ingestOne_nonother st it id hid hpos hns]
        simp [normTag, hid, hpos, mkTag]

theorem ingestList_tags (st : IngestState) (items : List RawTag) :
    (ingestList st items).tags = st.tags ++ items.filterMap normTag := by
  induction items generalizing st with
  | nil => simp [ingestList]
  | cons it rest ih =>
    have hred : ingestList st (it :: rest) = ingestList (ingestOne st it) rest := rfl
    rw [hred, ih, ingestOne_tags]
    cases hn : normTag it <;> simp [hn]

/-! ### The ambiguity sentinel is monotone -/

theorem tiZero_step (st : IngestState) (it : RawTag) (k : String)
    (h : alGet st.translationIndex k = some 0) :
    alGet (ingestOne st it).translationIndex k = some 0 := by
  cases hid : it.id with
  | none => rw [ingestOne_invalid st it (by simp [normTag, hid])]; exact h
  | some id =>
    by_cases hpos : id ≤ 0
    · rw [ingestOne_invalid st it (by simp [normTag, hid, hpos])]; exact h
    · cases hns : isOtherLike (trimStr it.ns) with
      | true => rw [ingestOne_other st it id hid hpos hns]; exact h
      | false =>
        rw [ingestOne_nonother st it id hid hpos hns]
        show alGet (tiAfter st.translationIndex it id) k = some 0
        simp only [tiAfter]
        by_cases htk : norm (trimStr it.translation_text) = ""
        · rw [if_pos htk]; exact h
        · rw [if_neg htk]
          cases hK : alGet st.translationIndex
              (nsKey (trimStr it.ns) (norm (trimStr it.translation_text))) with
          | none =>
            simp only [hK]
            by_cases hk : k = nsKey (trimStr it.ns) (norm (trimStr it.translation_text))
            · rw [← hk] at hK
              rw [h] at hK
              cases hK
            · rw [alGet_alSet_ne _ _ _ _ hk]; exact h
          | some prev =>
            simp only [hK]
            by_cases hpe : prev = id
            · rw [if_pos hpe]; exact h
            · rw [if_neg hpe]
              by_cases hk : k = nsKey (trimStr it.ns) (norm (trimStr it.translation_text))
              · subst hk
                exact alGet_alSet_self _ _ _
              · rw [alGet_alSet_ne _ _ _ _ hk]; exact h

theorem tiZero_mono (st : IngestState) (items : List RawTag) (k : String)
    (h : alGet st.translationIndex k = some 0) :
    alGet (ingestList st items).translationIndex k = some 0 := by
  induction items generalizing st with
  | nil => exact h
  | cons it rest ih => exact ih (ingestOne st it) (tiZero_step st it k h)

/-! ### Re-ingesting an already indexed item changes neither index -/

theorem ingestOne_absorbed (st : IngestState) (it : RawTag) (h : Inv st)
    (hmem : ∀ u ∈ normTag it, u ∈ st.tags) :
    (ingestOne st it).translationIndex = st.translationIndex ∧
    (ingestOne st it).canonicalCandidates = st.canonicalCandidates := by
  cases hid : it.id with
  | none => rw [ingestOne_invalid st it (by simp [normTag, hid])]; exact ⟨rfl, rfl⟩
  | some id =>
    by_cases hpos : id ≤ 0
    · rw [ingestOne_invalid st it (by simp [normTag, hid, hpos])]; exact ⟨rfl, rfl⟩
    · have hT : mkTag it id ∈ st.tags := by
        apply hmem
        simp [normTag, hid, hpos, mkTag, Option.mem_def]
      cases hns : isOtherLike (trimStr it.ns) with
      | true => rw [ingestOne_other st it id hid hpos hns]; exact ⟨rfl, rfl⟩
      | false =>
        rw [ingestOne_nonother st it id hid hpos hns]
        have hTns : isOtherLike (mkTag it id).ns = false := by simpa [mkTag] using hns
        constructor
        · show tiAfter st.translationIndex it id = st.translationIndex
          simp only [tiAfter]
          by_cases htk : norm (trimStr it.translation_text) = ""
          · rw [if_pos htk]
          · rw [if_neg htk]
            have hprod : tagProduces (mkTag it id)
                (nsKey (trimStr it.ns) (norm (trimStr it.translation_text))) := by
              exact ⟨hTns, by simpa [mkTag] using htk, by simp [mkTag]⟩
            obtain ⟨v, hv, hd⟩ := h.ti_complete _ hT _ hprod
            simp only [hv]
            rcases hd with hv0 | hvid
            · subst hv0
              rw [if_neg (by omega : ¬ (0 : Int) = id)]
              exact alSet_eq_of_get _ _ _ hv
            · have : v = id := by simpa [mkTag] using hvid.symm
              subst this
              rw [if_pos rfl]
        · show ccAfter st.canonicalCandidates it id = st.canonicalCandidates
          simp only [ccAfter]
          have h1 : (if norm (trimStr it.name) = "" then st.canonicalCandidates
              else ccAdd st.canonicalCandidates (norm (trimStr it.name)) id) =
              st.canonicalCandidates := by
            by_cases hnk : norm (trimStr it.name) = ""
            · rw [if_pos hnk]
            · rw [if_neg hnk]
              have hnames : tagNames (mkTag it id) (norm (trimStr it.name)) :=
                ⟨hTns, Or.inl ⟨by simpa [mkTag] using hnk, by simp [mkTag]⟩⟩
              obtain ⟨s, hs, hm⟩ := h.cc_complete _ hT _ hnames
              exact ccAdd_eq_of_mem hs (by simpa [mkTag] using hm)
          rw [h1]
          by_cases htk : norm (trimStr it.translation_text) = ""
          · rw [if_pos htk]
          · rw [if_neg htk]
            have hnames : tagNames (mkTag it id) (norm (trimStr it.translation_text)) :=
              ⟨hTns, Or.inr ⟨by simpa [mkTag] using htk, by simp [mkTag]⟩⟩
            obtain ⟨s, hs, hm⟩ := h.cc_complete _ hT _ hnames
            exact ccAdd_eq_of_mem hs (by simpa [mkTag] using hm)

theorem ingestOne_congr (st st' : IngestState) (it : RawTag)
    (hti : st.translationIndex = st'.translationIndex)
    (hcc : st.canonicalCandidates = st'.canonicalCandidates) :
    (ingestOne st it).translationIndex = (ingestOne st' it).translationIndex ∧
    (ingestOne st it).canonicalCandidates = (ingestOne st' it).canonicalCandidates := by
  cases hid : it.id with
  | none =>
    rw [ingestOne_invalid st it (by simp [normTag, hid]),
      ingestOne_invalid st' it (by simp [normTag, hid])]
    exact ⟨hti, hcc⟩
  | some id =>
    by_cases hpos : id ≤ 0
    · rw [ingestOne_invalid st it (by simp [normTag, hid, hpos]),
        ingestOne_invalid st' it (by simp [normTag, hid, hpos])]
      exact ⟨hti, hcc⟩
    · cases hns : isOtherLike (trimStr it.ns) with
      | true =>
        rw [ingestOne_other st it id hid hpos hns, ingestOne_other st' it id hid hpos hns]
        exact ⟨hti, hcc⟩
      | false =>
        rw [ingestOne_nonother st it id hid hpos hns,
          ingestOne_nonother st' it id hid hpos hns]
        exact ⟨by show tiAfter _ _ _ = tiAfter _ _ _; rw [hti],
          by show ccAfter _ _ _ = ccAfter _ _ _; rw [hcc]⟩

theorem ingestList_absorbed (stBase : IngestState) (hInv : Inv stBase) :
    ∀ (ys : List RawTag) (st' : IngestState),
      (∀ it ∈ ys, ∀ u ∈ normTag it, u ∈ stBase.tags) →
      st'.translationIndex = stBase.translationIndex →
      st'.canonicalCandidates = stBase.canonicalCandidates →
      (ingestList st' ys).translationIndex = stBase.translationIndex ∧
      (ingestList st' ys).canonicalCandidates = stBase.canonicalCandidates := by
  intro ys
  induction ys with
  | nil => intro st' _ hti hcc; exact ⟨hti, hcc⟩
  | cons it rest ih =>
    intro st' hys hti hcc
    have habs := ingestOne_absorbed stBase it hInv (hys it (by simp))
    have hcong := ingestOne_congr st' stBase it hti hcc
    have hred : ingestList st' (it :: rest) = ingestList (ingestOne st' it) rest := rfl
    rw [hred]
    exact ih (ingestOne st' it) (fun i hi => hys i (by simp [hi]))
      (by rw [hcong.1, habs.1]) (by rw [hcong.2, habs.2])

/-! ### Properties of the planner -/

theorem proposeEdge_target (st : IngestState) (h : Inv st) (it : Tag) (tv : Int)
    (hp : proposeEdge st it = some tv) :
    0 < tv ∧ ∃ t ∈ st.tags, t.id = tv ∧ isOtherLike t.ns = false := by
  simp only [proposeEdge] at hp
  by_cases hnk : norm it.name = ""
  · simp [hnk] at hp
  · rw [if_neg hnk] at hp
    cases hol : isOtherLike (trimStr it.ns) with
    | true =>
      simp only [hol, if_pos, ite_true] at hp
      cases hcc : alGet st.canonicalCandidates (norm it.name) with
      | none => simp [hcc] at hp
      | some s =>
        simp only [hcc] at hp
        rcases s with _ | ⟨targetId, rest⟩
        · have hp' : (none : Option Int) = some tv := hp
          cases hp'
        · rcases rest with _ | ⟨b, rest'⟩
          · have hp' : (if targetId ≠ 0 ∧ targetId ≠ it.id then some targetId
                else none) = some tv := hp
            by_cases hcond : targetId ≠ 0 ∧ targetId ≠ it.id
            · rw [if_pos hcond] at hp'
              injection hp' with hp'
              subst hp'
              obtain ⟨t, ht, hidv, hot⟩ := h.cc_mem _ _ hcc targetId (by simp)
              exact ⟨hidv ▸ h.tags_pos t ht, t, ht, hidv, hot⟩
            · rw [if_neg hcond] at hp'
              cases hp'
          · have hp' : (none : Option Int) = some tv := hp
            cases hp'
    | false =>
      simp only [hol, Bool.false_eq_true, if_neg, ite_false] at hp
      cases hti : alGet st.translationIndex (nsKey (trimStr it.ns) (norm it.name)) with
      | none => simp [hti] at hp
      | some targetId =>
        simp only [hti] at hp
        by_cases hcond : targetId = 0 ∨ targetId = it.id
        · rw [if_pos hcond] at hp
          cases hp
        · rw [if_neg hcond] at hp
          injection hp with hp
          subst hp
          have hne0 : targetId ≠ 0 := fun h0 => hcond (Or.inl h0)
          obtain ⟨hvpos, t, ht, hprod, hidv⟩ := h.ti_sound _ targetId hti hne0
          exact ⟨hvpos, t, ht, hidv, hprod.1⟩

theorem buildEdges_keys_nodup (st : IngestState) :
    ((buildEdges st).map Prod.fst).Nodup := by
  have hgen : ∀ (l : List Tag) (acc : List (Int × Int)), (acc.map Prod.fst).Nodup →
      ((l.foldl (fun m it =>
          match proposeEdge st it with
          | none => m
          | some t => alSet m it.id t) acc).map Prod.fst).Nodup := by
    intro l
    induction l with
    | nil => intro acc h; exact h
    | cons it rest ih =>
      intro acc h
      cases hp : proposeEdge st it with
      | none =>
        simp only [List.foldl_cons, hp]
        exact ih acc h
      | some t =>
        simp only [List.foldl_cons, hp]
        exact ih _ (alSet_keys_nodup _ _ h)
  simpa [buildEdges] using hgen st.tags [] (by simp)

theorem buildEdges_values (st : IngestState) (h : Inv st) :
    ∀ e ∈ buildEdges st, 0 < e.2 ∧ ∃ t ∈ st.tags, t.id = e.2 ∧ isOtherLike t.ns = false := by
  have hgen : ∀ (l : List Tag) (acc : List (Int × Int)),
      (∀ e ∈ acc, 0 < e.2 ∧ ∃ t ∈ st.tags, t.id = e.2 ∧ isOtherLike t.ns = false) →
      ∀ e ∈ l.foldl (fun m it =>
          match proposeEdge st it with
          | none => m
          | some t => alSet m it.id t) acc,
        0 < e.2 ∧ ∃ t ∈ st.tags, t.id = e.2 ∧ isOtherLike t.ns = false := by
    intro l
    induction l with
    | nil => intro acc hacc e he; exact hacc e he
    | cons it rest ih =>
      intro acc hacc e he
      cases hp : proposeEdge st it with
      | none =>
        simp only [List.foldl_cons, hp] at he
        exact ih acc hacc e he
      | some t =>
        simp only [List.foldl_cons, hp] at he
        refine ih _ ?_ e he
        intro d hd
        rcases mem_alSet hd with hdd | hdd
        · subst hdd
          exact proposeEdge_target st h it t hp
        · exact hacc d hdd
  intro e he
  exact hgen st.tags [] (by simp) e he

theorem mem_buildMerges (s2t : List (Int × Int)) (ins : List (Int × String)) (e : Int × Int)
    (he : e ∈ buildMerges s2t ins) :
    ∃ d ∈ s2t, e = (d.1, resolve s2t d.2) ∧ resolve s2t d.2 ≠ d.1 ∧
      (isOtherLike ((alGet ins d.1).getD "") &&
        isOtherLike ((alGet ins (resolve s2t d.2)).getD "")) = false := by
  have hperm := List.perm_insertionSort (fun a b : Int × Int => a.1 ≤ b.1)
    (s2t.foldl
      (fun acc d =>
        let finalTarget := resolve s2t d.2
        if finalTarget = d.1 then acc
        else if isOtherLike ((alGet ins d.1).getD "") &&
                isOtherLike ((alGet ins finalTarget).getD "") then acc
        else acc ++ [(d.1, finalTarget)])
      [])
  have hraw : e ∈ s2t.foldl
      (fun acc d =>
        let finalTarget := resolve s2t d.2
        if finalTarget = d.1 then acc
        else if isOtherLike ((alGet ins d.1).getD "") &&
                isOtherLike ((alGet ins finalTarget).getD "") then acc
        else acc ++ [(d.1, finalTarget)])
      [] := hperm.mem_iff.mp he
  have hgen : ∀ (l acc : List (Int × Int)),
      (∀ d ∈ acc, ∃ d' ∈ s2t, d = (d'.1, resolve s2t d'.2) ∧ resolve s2t d'.2 ≠ d'.1 ∧
        (isOtherLike ((alGet ins d'.1).getD "") &&
          isOtherLike ((alGet ins (resolve s2t d'.2)).getD "")) = false) →
      (∀ d ∈ l, d ∈ s2t) →
      ∀ d ∈ l.foldl
          (fun acc d =>
            let finalTarget := resolve s2t d.2
            if finalTarget = d.1 then acc
            else if isOtherLike ((alGet ins d.1).getD "") &&
                    isOtherLike ((alGet ins finalTarget).getD "") then acc
            else acc ++ [(d.1, finalTarget)])
          acc,
        ∃ d' ∈ s2t, d = (d'.1, resolve s2t d'.2) ∧ resolve s2t d'.2 ≠ d'.1 ∧
          (isOtherLike ((alGet ins d'.1).getD "") &&
            isOtherLike ((alGet ins (resolve s2t d'.2)).getD "")) = false := by
    intro l
    induction l with
    | nil => intro acc hacc _ d hd; exact hacc d hd
    | cons x rest ih =>
      intro acc hacc hl d hd
      simp only [List.foldl_cons] at hd
      by_cases h1 : resolve s2t x.2 = x.1
      · rw [if_pos h1] at hd
        exact ih acc hacc (fun d' hd' => hl d' (by simp [hd'])) d hd
      · rw [if_neg h1] at hd
        by_cases h2 : (isOtherLike ((alGet ins x.1).getD "") &&
            isOtherLike ((alGet ins (resolve s2t x.2)).getD "")) = true
        · rw [if_pos h2] at hd
          exact ih acc hacc (fun d' hd' => hl d' (by simp [hd'])) d hd
        · rw [if_neg h2] at hd
          refine ih _ ?_ (fun d' hd' => hl d' (by simp [hd'])) d hd
          intro d' hd'
          rcases List.mem_append.mp hd' with hdd | hdd
          · exact hacc d' hdd
          · have heq : d' = (x.1, resolve s2t x.2) := by simpa using hdd
            exact ⟨x, hl x (by simp), heq, h1, Bool.not_eq_true _ ▸ by
              simpa using h2⟩
  exact hgen s2t [] (by simp) (fun d hd => hd) e hraw

theorem buildMerges_fst_nodup (s2t : List (Int × Int)) (ins : List (Int × String))
    (h : (s2t.map Prod.fst).Nodup) :
    ((buildMerges s2t ins).map Prod.fst).Nodup := by
  have hgen : ∀ (l acc : List (Int × Int)),
      ∃ tail, ((l.foldl
          (fun acc d =>
            let finalTarget := resolve s2t d.2
            if finalTarget = d.1 then acc
            else if isOtherLike ((alGet ins d.1).getD "") &&
                    isOtherLike ((alGet ins finalTarget).getD "") then acc
            else acc ++ [(d.1, finalTarget)])
          acc).map Prod.fst) = acc.map Prod.fst ++ tail ∧
        List.Sublist tail (l.map Prod.fst) := by
    intro l
    induction l with
    | nil => intro acc; exact ⟨[], by simp, List.Sublist.refl _⟩
    | cons x rest ih =>
      intro acc
      simp only [List.foldl_cons]
      by_cases h1 : resolve s2t x.2 = x.1
      · rw [if_pos h1]
        obtain ⟨tail, heq, hsub⟩ := ih acc
        exact ⟨tail, heq, hsub.cons _⟩
      · rw [if_neg h1]
        by_cases h2 : (isOtherLike ((alGet ins x.1).getD "") &&
            isOtherLike ((alGet ins (resolve s2t x.2)).getD "")) = true
        · rw [if_pos h2]
          obtain ⟨tail, heq, hsub⟩ := ih acc
          exact ⟨tail, heq, hsub.cons _⟩
        · rw [if_neg h2]
          obtain ⟨tail, heq, hsub⟩ := ih (acc ++ [(x.1, resolve s2t x.2)])
          refine ⟨x.1 :: tail, ?_, List.Sublist.cons₂ _ hsub⟩
          rw [heq]
          simp
  obtain ⟨tail, heq, hsub⟩ := hgen s2t []
  have hrawnd : ((s2t.foldl
      (fun acc d =>
        let finalTarget := resolve s2t d.2
        if finalTarget = d.1 then acc
        else if isOtherLike ((alGet ins d.1).getD "") &&
                isOtherLike ((alGet ins finalTarget).getD "") then acc
        else acc ++ [(d.1, finalTarget)])
      []).map Prod.fst).Nodup := by
    rw [heq]
    simpa using hsub.nodup h
  have hperm := (List.perm_insertionSort (fun a b : Int × Int => a.1 ≤ b.1)
    (s2t.foldl
      (fun acc d =>
        let finalTarget := resolve s2t d.2
        if finalTarget = d.1 then acc
        else if isOtherLike ((alGet ins d.1).getD "") &&
                isOtherLike ((alGet ins finalTarget).getD "") then acc
        else acc ++ [(d.1, finalTarget)])
      [])).map Prod.fst
  exact (hperm.nodup_iff).mpr hrawnd

theorem buildMerges_sorted (s2t : List (Int × Int)) (ins : List (Int × String)) :
    List.Pairwise (fun a b : Int × Int => a.1 ≤ b.1) (buildMerges s2t ins) := by
  haveI : IsTotal (Int × Int) (fun a b => a.1 ≤ b.1) := ⟨fun a b => Int.le_total a.1 b.1⟩
  haveI : IsTrans (Int × Int) (fun a b => a.1 ≤ b.1) :=
    ⟨fun a b c hab hbc => le_trans hab hbc⟩
  exact List.sorted_insertionSort _ _

theorem buildMerges_strict (s2t : List (Int × Int)) (ins : List (Int × String))
    (h : (s2t.map Prod.fst).Nodup) :
    List.Pairwise (fun a b : Int × Int => a.1 < b.1) (buildMerges s2t ins) := by
  have hle := buildMerges_sorted s2t ins
  have hnd := buildMerges_fst_nodup s2t ins h
  have hne : List.Pairwise (fun a b : Int × Int => a.1 ≠ b.1) (buildMerges s2t ins) :=
    List.pairwise_map.mp hnd
  exact (hle.and hne).imp (fun hab => lt_of_le_of_ne hab.1 hab.2)

/-! ### Concrete inputs used by witnesses and counterexamples -/

/-- A host whose only page holds two artist tags, one translated as the
other's name; the computed plan is nonempty. -/
def host1 : Nat → HostPage :=
  fun _ => ⟨2, [⟨some 1, "artist", "Foo", "Bar"⟩, ⟨some 2, "artist", "Bar", ""⟩]⟩

/-- The raw items of the page of host1. -/
def items1 : List RawTag :=
  [⟨some 1, "artist", "Foo", "Bar"⟩, ⟨some 2, "artist", "Bar", ""⟩]

/-- A host whose only page holds two records with the same id. -/
def hostDup : Nat → HostPage :=
  fun _ => ⟨2, [⟨some 1, "a", "x", ""⟩, ⟨some 1, "b", "y", ""⟩]⟩

/-- The proposed-edge map of a pure three-cycle 1→2→3→1. -/
def cycleMap : List (Int × Int) := [(1, 2), (2, 3), (3, 1)]

/-- Namespaces of the three cycle members (all non-otherlike). -/
def cycleNs : List (Int × String) := [(1, "artist"), (2, "artist"), (3, "artist")]

/-! ### Claim theorems -/

/-- C1 counterexample: for the edge set 1→2→3→1 the final merge plan is
exactly 1→2, 2→3, 3→1, so there is a plan entry whose source and resolved
target both lie in the cycle — the claim that no member of the cycle is
merged into another is false. -/
theorem c1_counterexample :
    buildMerges cycleMap cycleNs = [(1, 2), (2, 3), (3, 1)] ∧
    ¬ (∀ e ∈ buildMerges cycleMap cycleNs,
        ¬ ((e.1 = 1 ∨ e.1 = 2 ∨ e.1 = 3) ∧ (e.2 = 1 ∨ e.2 = 2 ∨ e.2 = 3))) := by
  decide

/-- C1 (amended): for the edge set A→B→C→A (with A,B,C = 1,2,3 and
non-otherlike namespaces), plan resolution terminates — the resolve loop
returns within |edges|+1 steps for every starting id — but the cycle is
kept rather than collapsed: each member is merged into its immediate
successor, the plan being exactly A→B, B→C, C→A. -/
theorem c1_cycle_terminates_but_merges :
    (∀ id : Int, (resolveGo cycleMap (cycleMap.length + 1) id []).isSome = true) ∧
    buildMerges cycleMap cycleNs = [(1, 2), (2, 3), (3, 1)] := by
  constructor
  · intro id
    exact resolveGo_isSome cycleMap (cycleMap.length + 1) id [] (by decide)
  · decide

/-- C2: with the dry-run flag true, a full run makes zero tags.merge host
calls, yet still emits the plan preview (first 200 entries plus true
count) and a success result carrying total_tags and planned_merges. -/
theorem c2_dry_run_no_merge_calls (p : Nat) (deleteSource : Bool) (maxMerges : Nat)
    (host : Nat → HostPage) (hplan : 0 < (planOf p host).length) :
    (runPlugin p true deleteSource maxMerges host).mergeCalls = [] ∧
    (runPlugin p true deleteSource maxMerges host).result =
      { success := true, dry_run := true, total_tags := (catalogOf p host).tags.length,
        planned_merges := (planOf p host).length, applied_merges := none } ∧
    (runPlugin p true deleteSource maxMerges host).preview =
      ((planOf p host).take 200, (planOf p host).length) :=
  ⟨rfl, rfl, rfl⟩

/-- C2 witness: a concrete host with a nonempty computed plan on which the
dry-run theorem applies. -/
theorem c2_witness :
    0 < (planOf 1000 host1).length ∧
    ((runPlugin 1000 true true 0 host1).mergeCalls = [] ∧
     (runPlugin 1000 true true 0 host1).result =
       { success := true, dry_run := true, total_tags := (catalogOf 1000 host1).tags.length,
         planned_merges := (planOf 1000 host1).length, applied_merges := none } ∧
     (runPlugin 1000 true true 0 host1).preview =
       ((planOf 1000 host1).take 200, (planOf 1000 host1).length)) :=
  ⟨by decide, c2_dry_run_no_merge_calls 1000 true 0 host1 (by decide)⟩

/-- C3: ambiguity poisoning is monotonic and suppresses rule 1 — once two
retained non-otherlike tags with distinct ids produce the same translation
key, that key holds the sentinel 0 at the end of loading, stays 0 under
any further ingestion, and any non-otherlike tag whose rule-1 lookup key
equals that key is proposed no edge. -/
theorem c3_ambiguity_poisoning (pre mid post : List RawTag) (a b : RawTag)
    (ta tb : Tag) (k : String)
    (hna : normTag a = some ta) (hnb : normTag b = some tb)
    (hpa : tagProduces ta k) (hpb : tagProduces tb k)
    (hne : ta.id ≠ tb.id) :
    alGet (ingestList initState (pre ++ a :: mid ++ b :: post)).translationIndex k =
      some 0 ∧
    (∀ more, alGet (ingestList (ingestList initState (pre ++ a :: mid ++ b :: post))
        more).translationIndex k = some 0) ∧
    (∀ T ∈ (ingestList initState (pre ++ a :: mid ++ b :: post)).tags,
      isOtherLike T.ns = false → nsKey T.ns (norm T.name) = k →
      proposeEdge (ingestList initState (pre ++ a :: mid ++ b :: post)) T = none) := by
  have hInv := Inv_ingestList initState (pre ++ a :: mid ++ b :: post) Inv_init
  have htags := ingestList_tags initState (pre ++ a :: mid ++ b :: post)
  have hta : ta ∈ (ingestList initState (pre ++ a :: mid ++ b :: post)).tags := by
    rw [htags]
    exact List.mem_append_right _ (List.mem_filterMap.mpr ⟨a, by simp, hna⟩)
  have htb : tb ∈ (ingestList initState (pre ++ a :: mid ++ b :: post)).tags := by
    rw [htags]
    exact List.mem_append_right _ (List.mem_filterMap.mpr ⟨b, by simp, hnb⟩)
  have hzero : alGet (ingestList initState
      (pre ++ a :: mid ++ b :: post)).translationIndex k = some 0 := by
    obtain ⟨v, hv, hdv⟩ := hInv.ti_complete ta hta k hpa
    obtain ⟨v', hv', hdv'⟩ := hInv.ti_complete tb htb k hpb
    have hvv : v = v' := by rw [hv] at hv'; injection hv'
    subst hvv
    rcases hdv with h0 | hida
    · subst h0; exact hv
    · rcases hdv' with h0 | hidb
      · subst h0; exact hv
      · exact absurd (hida.trans hidb.symm) hne
  refine ⟨hzero, fun more => tiZero_mono _ more k hzero, ?_⟩
  intro T hT hTns hTkey
  have htrim : trimStr T.ns = T.ns := hInv.tags_trim T hT
  simp only [proposeEdge, htrim, hTns, hTkey, Bool.false_eq_true, if_neg, ite_false]
  by_cases hnk : norm T.name = ""
  · rw [if_pos hnk]
  · rw [if_neg hnk, hzero]
    simp

/-- C3 witness: two artist tags with ids 1 and 2 both translated "T"
poison key (artist, t); the poisoning and the rule-1 suppression hold on
that concrete catalog. -/
theorem c3_witness :
    normTag ⟨some 1, "artist", "x", "T"⟩ = some ⟨1, "artist", "x", "T"⟩ ∧
    normTag ⟨some 2, "artist", "y", "T"⟩ = some ⟨2, "artist", "y", "T"⟩ ∧
    tagProduces ⟨1, "artist", "x", "T"⟩ (nsKey "artist" "t") ∧
    tagProduces ⟨2, "artist", "y", "T"⟩ (nsKey "artist" "t") ∧
    (⟨1, "artist", "x", "T"⟩ : Tag).id ≠ (⟨2, "artist", "y", "T"⟩ : Tag).id ∧
    (alGet (ingestList initState
        ([] ++ ⟨some 1, "artist", "x", "T"⟩ :: [] ++ ⟨some 2, "artist", "y", "T"⟩ ::
          [])).translationIndex (nsKey "artist" "t") = some 0 ∧
     (∀ more, alGet (ingestList (ingestList initState
        ([] ++ ⟨some 1, "artist", "x", "T"⟩ :: [] ++ ⟨some 2, "artist", "y", "T"⟩ ::
          [])) more).translationIndex (nsKey "artist" "t") = some 0) ∧
     (∀ T ∈ (ingestList initState
        ([] ++ ⟨some 1, "artist", "x", "T"⟩ :: [] ++ ⟨some 2, "artist", "y", "T"⟩ ::
          [])).tags,
       isOtherLike T.ns = false → nsKey T.ns (norm T.name) = nsKey "artist" "t" →
       proposeEdge (ingestList initState
        ([] ++ ⟨some 1, "artist", "x", "T"⟩ :: [] ++ ⟨some 2, "artist", "y", "T"⟩ ::
          [])) T = none)) :=
  ⟨by decide, by decide, by decide, by decide, by decide,
    c3_ambiguity_poisoning [] [] []
      ⟨some 1, "artist", "x", "T"⟩ ⟨some 2, "artist", "y", "T"⟩
      ⟨1, "artist", "x", "T"⟩ ⟨2, "artist", "y", "T"⟩ (nsKey "artist" "t")
      (by decide) (by decide) (by decide) (by decide) (by decide)⟩

/-- C4: for every run, the emitted merge plan is strictly ascending in
source id, and hence holds no duplicate source id. -/
theorem c4_plan_sorted_nodup (p : Nat) (host : Nat → HostPage) :
    List.Pairwise (fun a b : Int × Int => a.1 < b.1) (planOf p host) ∧
    ((planOf p host).map Prod.fst).Nodup := by
  have hstrict : List.Pairwise (fun a b : Int × Int => a.1 < b.1) (planOf p host) :=
    buildMerges_strict (buildEdges (catalogOf p host)) (catalogOf p host).idToNs
      (buildEdges_keys_nodup _)
  exact ⟨hstrict, List.pairwise_map.mpr (hstrict.imp fun hab => ne_of_lt hab)⟩

/-- C5: no self-merge — in every emitted plan entry, the resolved target
id differs from the source id. -/
theorem c5_no_self_merge (p : Nat) (host : Nat → HostPage) :
    ∀ e ∈ planOf p host, e.2 ≠ e.1 := by
  intro e he
  obtain ⟨d, hd, heq, hne, -⟩ :=
    mem_buildMerges (buildEdges (catalogOf p host)) (catalogOf p host).idToNs e he
  rw [heq]
  simpa using hne

/-- C5 witness: a concrete run with a plan entry, to which the theorem
applies. -/
theorem c5_witness :
    ((2 : Int), (1 : Int)) ∈ planOf 1000 host1 ∧
    (((2 : Int), (1 : Int)) : Int × Int).2 ≠ (((2 : Int), (1 : Int)) : Int × Int).1 :=
  ⟨by decide, c5_no_self_merge 1000 host1 (2, 1) (by decide)⟩

/-- C6: no otherlike-to-otherlike merge — in every emitted plan entry it
is not the case that both the source's namespace and the resolved target's
namespace (as recorded in the id-to-namespace map) are otherlike. -/
theorem c6_no_otherlike_merge (p : Nat) (host : Nat → HostPage) :
    ∀ e ∈ planOf p host,
      ¬ (isOtherLike ((alGet (catalogOf p host).idToNs e.1).getD "") = true ∧
         isOtherLike ((alGet (catalogOf p host).idToNs e.2).getD "") = true) := by
  intro e he hcon
  obtain ⟨d, hd, heq, -, hb⟩ :=
    mem_buildMerges (buildEdges (catalogOf p host)) (catalogOf p host).idToNs e he
  subst heq
  rw [hcon.1, hcon.2] at hb
  cases hb

/-- C6 witness: a concrete run with a plan entry, to which the theorem
applies. -/
theorem c6_witness :
    ((2 : Int), (1 : Int)) ∈ planOf 1000 host1 ∧
    ¬ (isOtherLike ((alGet (catalogOf 1000 host1).idToNs 2).getD "") = true ∧
       isOtherLike ((alGet (catalogOf 1000 host1).idToNs 1).getD "") = true) :=
  ⟨by decide, c6_no_otherlike_merge 1000 host1 (2, 1) (by decide)⟩

/-- C7: chain resolution terminates on every finite edge map — with fuel
|edges|+1 the bounded walk always returns a result (stopping on a revisit
at the last visited id before the repeat, and on a missing outgoing edge
at the current id), and resolve equals that result. -/
theorem c7_resolve_terminates (m : List (Int × Int)) (id : Int) :
    ∃ r, resolveGo m (m.length + 1) id [] = some r ∧ resolve m id = r := by
  have hfuel : (m.filter (fun e => decide (e.2 ∉ ([] : List Int)))).length < m.length + 1 :=
    Nat.lt_succ_of_le (List.length_filter_le _ _)
  have hsome := resolveGo_isSome m (m.length + 1) id [] hfuel
  rcases Option.isSome_iff_exists.1 hsome with ⟨r, hr⟩
  exact ⟨r, hr, by simp [resolve, hr]⟩

/-- C8 counterexample: a host page carrying two records with the same id 1
yields a loaded catalog retaining both — id is not unique for every
sequence of host page responses. -/
theorem c8_counterexample :
    ((catalogOf 1000 hostDup).tags.map Tag.id) = [1, 1] ∧
    ¬ ((catalogOf 1000 hostDup).tags.map Tag.id).Nodup := by
  decide

/-- C8 (amended): the loaded catalog is exactly the filtered normalization
of the host's items — every record with non-finite or non-positive id is
discarded, never failing the run — and, provided the valid ids appearing
across the host's pages are pairwise distinct, the catalog's ids are
unique. -/
theorem c8_discard_and_conditional_unique (p : Nat) (host : Nat → HostPage)
    (h : (((allItemsOf p host).filterMap normTag).map Tag.id).Nodup) :
    (catalogOf p host).tags = (allItemsOf p host).filterMap normTag ∧
    ((catalogOf p host).tags.map Tag.id).Nodup := by
  have hchar : (catalogOf p host).tags = (allItemsOf p host).filterMap normTag := by
    simpa [initState] using ingestList_tags initState (allItemsOf p host)
  exact ⟨hchar, by rw [hchar]; exact h⟩

/-- C8 witness: a concrete host with pairwise distinct valid ids on which
the amended theorem applies. -/
theorem c8_witness :
    (((allItemsOf 1000 host1).filterMap normTag).map Tag.id).Nodup ∧
    ((catalogOf 1000 host1).tags = (allItemsOf 1000 host1).filterMap normTag ∧
     ((catalogOf 1000 host1).tags.map Tag.id).Nodup) :=
  ⟨by decide, c8_discard_and_conditional_unique 1000 host1 (by decide)⟩

/-- C9: indexing is idempotent — ingesting the same item list a second
time leaves both the translation index and the canonical-candidate index
unchanged. -/
theorem c9_indexing_idempotent (items : List RawTag) :
    (ingestList (ingestList initState items) items).translationIndex =
      (ingestList initState items).translationIndex ∧
    (ingestList (ingestList initState items) items).canonicalCandidates =
      (ingestList initState items).canonicalCandidates := by
  have hInv := Inv_ingestList initState items Inv_init
  refine ingestList_absorbed (ingestList initState items) hInv items
    (ingestList initState items) ?_ rfl rfl
  intro it hit u hu
  rw [ingestList_tags]
  exact List.mem_append_right _ (List.mem_filterMap.mpr ⟨it, hit, hu⟩)

/-- C10: assuming the loaded catalog's ids are unique, every target id of
the final merge plan is the id of a non-otherlike tag of the catalog — no
merge targets an uncategorized tag. -/
theorem c10_targets_nonotherlike (items : List RawTag)
    (h : ((ingestList initState items).tags.map Tag.id).Nodup) :
    ∀ e ∈ buildMerges (buildEdges (ingestList initState items))
        (ingestList initState items).idToNs,
      ∃ t ∈ (ingestList initState items).tags, t.id = e.2 ∧ isOtherLike t.ns = false := by
  intro e he
  have hInv := Inv_ingestList initState items Inv_init
  obtain ⟨d, hd, heq, -, -⟩ :=
    mem_buildMerges (buildEdges (ingestList initState items))
      (ingestList initState items).idToNs e he
  have hvals := buildEdges_values (ingestList initState items) hInv
  rcases resolve_out (buildEdges (ingestList initState items)) d.2 with hres | ⟨s, hsmem⟩
  · have hP := hvals d hd
    rw [heq]
    simpa [hres] using hP.2
  · have hP := hvals (s, resolve (buildEdges (ingestList initState items)) d.2) hsmem
    rw [heq]
    exact hP.2

/-- C10 witness: a concrete catalog with unique ids and a nonempty plan on
which the theorem applies. -/
theorem c10_witness :
    ((ingestList initState items1).tags.map Tag.id).Nodup ∧
    ((2 : Int), (1 : Int)) ∈ buildMerges (buildEdges (ingestList initState items1))
      (ingestList initState items1).idToNs ∧
    (∃ t ∈ (ingestList initState items1).tags,
      t.id = (((2 : Int), (1 : Int)) : Int × Int).2 ∧ isOtherLike t.ns = false) :=
  ⟨by decide, by decide, c10_targets_nonotherlike items1 (by decide) (2, 1) (by decide)⟩

end TagMerge
